import Mathlib

/-!
Shallow embedding of `fuzzy_patch.py`, a fuzzy unified-diff patcher.
Lines of text are modelled as `String` (newline characters already stripped,
as the Python code does with `line.rstrip("\n")` after `readlines()`), files
as `String → Option String` (path to raw content).  All functions are
executable structural recursions mirroring the Python source.
-/

namespace FuzzyPatch

/-- Whitespace characters stripped by the Python `str.strip` family
(the ASCII subset; the inputs in scope contain no exotic whitespace). -/
def isPyWs (c : Char) : Bool :=
  c == ' ' || c == '\t' || c == '\n' || c == '\r' || c == '\x0b' || c == '\x0c'

/-- Python `str.rstrip()`: drop trailing whitespace. -/
def rstrip (s : String) : String :=
  String.mk ((s.toList.reverse.dropWhile isPyWs).reverse)

/-- Python `str.lstrip()`: drop leading whitespace. -/
def lstrip (s : String) : String :=
  String.mk (s.toList.dropWhile isPyWs)

/-- Python `str.strip()`. -/
def strip (s : String) : String :=
  lstrip (rstrip s)

/-- A line consisting only of whitespace (so `str.strip()` of it is empty). -/
def isBlank (s : String) : Bool :=
  s.toList.all isPyWs

/-- Python `s.startswith(pat)`. -/
def pyStartsWith (s pat : String) : Bool :=
  List.isPrefixOf pat.toList s.toList

/-- Helper for substring search: some suffix of the list has `pat` as a prefix. -/
def subAt (pat : List Char) : List Char → Bool
  | [] => List.isPrefixOf pat []
  | c :: rest => List.isPrefixOf pat (c :: rest) || subAt pat rest

/-- Python `pat in s` (substring containment). -/
def containsSub (s pat : String) : Bool :=
  subAt pat.toList s.toList

/-- Accumulates characters of the current line; models splitting a raw file
content on newline characters (each fragment is a line without its newline). -/
def toLinesAux : List Char → List Char → List String
  | [], acc => [String.mk acc.reverse]
  | '\n' :: rest, acc => String.mk acc.reverse :: toLinesAux rest []
  | c :: rest, acc => toLinesAux rest (c :: acc)

/-- Python `[line.rstrip("\n") for line in f.readlines()]`: split content into
newline-free lines; a trailing newline does not produce an extra empty line,
and empty content gives no lines. -/
def toLines (s : String) : List String :=
  match (toLinesAux s.toList []).reverse with
  | [] => []
  | last :: pre => if last = "" then pre.reverse else (toLinesAux s.toList [])

/-- Join lines with newlines. -/
def joinNl : List String → String
  | [] => ""
  | [a] => a
  | a :: b :: rest => a ++ "\n" ++ joinNl (b :: rest)

/-- The final write of `apply_fuzzy_patch`: `"\n".join(lines)` plus a trailing
newline when the line list is non-empty, the empty string otherwise. -/
def fromLines (lines : List String) : String :=
  match lines with
  | [] => ""
  | _ => joinNl lines ++ "\n"

/-! ## Flexible matcher (`find_flexible_match`, source lines 6-65) -/

/-- The scan at source lines 37-41: starting at index `j` (the list argument is
the suffix `target.drop j`), find the first index whose rstripped line equals
`pat`. -/
def findFromAux (pat : String) : List String → Nat → Option Nat
  | [], _ => none
  | a :: rest, j => if rstrip a = pat then some j else findFromAux pat rest (j + 1)

/-- First index `k ≥ j` with `rstrip (target[k]) = pat`, if any. -/
def findFirstFrom (target : List String) (pat : String) (j : Nat) : Option Nat :=
  findFromAux pat (target.drop j) j

/-- The inner walk at source lines 51-59: `p` indexes `core`, `t` indexes the
target (the list argument is the suffix `target.drop t`).  A matching line
advances both pointers, a blank line advances only `t`, a non-blank mismatch
stops.  Returns the final `(p, t)`. -/
def walkAux (core : List String) (p : Nat) : List String → Nat → Nat × Nat
  | [], t => (p, t)
  | a :: rest, t =>
    if p < core.length then
      if rstrip a = core.getD p "" then walkAux core (p + 1) rest (t + 1)
      else if rstrip a ≠ "" then (p, t)
      else walkAux core p rest (t + 1)
    else (p, t)

/-- The walk started at pattern index `p` and target index `t`. -/
def walk (target core : List String) (p t : Nat) : Nat × Nat :=
  walkAux core p (target.drop t) t

/-- The outer candidate loop at source lines 32-63 (the list argument is the
suffix `target.drop i`): find the first occurrence of `core[0]` at or after
`i`; if the walk from it consumes all of `core`, return the match, otherwise
retry from `i + 1`.  If `core[0]` does not occur at all, fail. -/
def ffmAux (target core : List String) : List String → Nat → Option (Nat × Nat)
  | [], _ => none
  | _ :: rest, i =>
    match findFirstFrom target (core.headD "") i with
    | none => none
    | some j =>
      let r := walk target core 1 (j + 1)
      if r.1 = core.length then some (j, r.2)
      else ffmAux target core rest (i + 1)

/-- The fallback at source lines 23-30 for an all-blank hunk: exact contiguous
match of the rstripped window against `hunk` (the list argument is the suffix
`target.drop i`). -/
def exactAux (hunk : List String) : List String → Nat → Option (Nat × Nat)
  | l, i =>
    if hunk.length ≤ l.length then
      if (l.take hunk.length).map rstrip = hunk then some (i, i + hunk.length)
      else
        match l with
        | [] => none
        | _ :: rest => exactAux hunk rest (i + 1)
    else none

/-- The source function `find_flexible_match(target_lines, hunk_lines,
search_start_idx)`: `(False, -1, -1)` is modelled as `none`, `(True, s, e)` as
`some (s, e)`. -/
def find_flexible_match (target hunk : List String) (searchStart : Nat) :
    Option (Nat × Nat) :=
  let core := hunk.filter (fun l => l != "")
  if core = [] then
    if searchStart ≤ target.length then exactAux hunk (target.drop searchStart) searchStart
    else none
  else ffmAux target core (target.drop searchStart) searchStart

/-! ## Diff segmenter (source lines 118-138) -/

/-- A line opening a hunk: `re.split(r"(?=^@@)", ..., re.MULTILINE)` splits
before every line starting with `"@@"`. -/
def startsHunk (l : String) : Bool :=
  pyStartsWith l "@@"

/-- Collects one hunk group (header line `hd` plus following non-header lines,
`acc` reversed) and recurses at the next header. -/
def goGroup (hd : String) (acc : List String) : List String → List (List String)
  | [] => [hd :: acc.reverse]
  | x :: rest =>
    if startsHunk x then (hd :: acc.reverse) :: goGroup x [] rest
    else goGroup hd (x :: acc) rest

/-- Group a line list into hunk chunks, each starting at a `"@@"` line.
Intended to be applied after dropping the leading non-header lines. -/
def groupHunks : List String → List (List String)
  | [] => []
  | l :: rest => goGroup l [] rest

/-- Model of `hunk_text.strip().splitlines()` on a line group whose join (by
newlines) is the hunk text: leading and trailing whitespace-only lines vanish
into the strip, the outermost remaining lines lose their outer whitespace. -/
def stripGroup (g : List String) : List String :=
  match g.dropWhile isBlank with
  | [] => []
  | a :: r =>
    match r.reverse.dropWhile isBlank with
    | [] => [strip a]
    | x :: rest => lstrip a :: (rstrip x :: rest).reverse

/-! ## Hunk interpreter (source lines 144-176) -/

/-- One or more decimal digits, greedily. -/
def takeDigits (cs : List Char) : List Char × List Char :=
  (cs.takeWhile Char.isDigit, cs.dropWhile Char.isDigit)

/-- Decimal value of a digit list. -/
def digitsToNat (ds : List Char) : Nat :=
  ds.foldl (fun n c => 10 * n + (c.toNat - '0'.toNat)) 0

/-- After a digit run, the optional `,(\d+)` group of the header pattern:
returns the rest on success, `none` when a comma is not followed by digits
(in that case the regex as a whole fails, since neither a space nor further
digits can follow; greedy parsing agrees with the backtracking regex here). -/
def skipCount (cs : List Char) : Option (List Char) :=
  match cs with
  | ',' :: r =>
    let d := takeDigits r
    if d.1 = [] then none else some d.2
  | _ => some cs

/-- Model of `re.match(r"@@ -(\d+)(?:,(\d+))? \+(\d+)(?:,(\d+))? @@", header)`, keeping
only group 1 (`old_start_line_1idx`), the single group the source uses. -/
def parseHunkHeader (s : String) : Option Nat :=
  match s.toList with
  | '@' :: '@' :: ' ' :: '-' :: rest =>
    let d1 := takeDigits rest
    if d1.1 = [] then none
    else
      match skipCount d1.2 with
      | none => none
      | some r3 =>
        match r3 with
        | ' ' :: '+' :: r4 =>
          let d3 := takeDigits r4
          if d3.1 = [] then none
          else
            match skipCount d3.2 with
            | none => none
            | some r7 =>
              match r7 with
              | ' ' :: '@' :: '@' :: _ => some (digitsToNat d1.1)
              | _ => none
        | _ => none
  | _ => none

/-- Source lines 156-176: classify each hunk body line by its first character.
Empty lines are skipped (the redundant guard at lines 157-162 also only skips
empty lines); a leading space contributes the rstripped content to the
expected block and the raw content to the new block, `-` only to the expected
block, `+` only to the new block, and any other first character contributes to
neither (the if/elif chain has no else branch). -/
def interpretBody : List String → List String × List String
  | [] => ([], [])
  | l :: rest =>
    let r := interpretBody rest
    match l.toList with
    | [] => r
    | op :: cs =>
      let raw := String.mk cs
      let st := rstrip raw
      if op = ' ' then (st :: r.1, raw :: r.2)
      else if op = '-' then (st :: r.1, r.2)
      else if op = '+' then (r.1, raw :: r.2)
      else r

/-! ## Sequential applier (source lines 131-251) -/

/-- The fatal errors raised while applying hunks. -/
inductive PatchError : Type
  | malformedHeader (header : String)
  | hunkMatchFailure (header : String) (expected : List String)
deriving DecidableEq, Repr

/-- Source lines 182-189: the insertion point of a pure insertion,
`max(0, min(insertion_point_0idx, len(patched_lines_raw)))` where the raw
point is the offset itself when `old_start` is `0` and `(old_start - 1) +
offset` otherwise (`Int.toNat` supplies the clamp at `0`). -/
def insPoint (oldStart : Nat) (offset : Int) (len : Nat) : Nat :=
  (min (if oldStart = 0 then offset else ((oldStart : Int) - 1) + offset)
    ((len : Int))).toNat

/-- Source lines 191-195 and 229-233: replace the sublist from `p` up to
(excluding) `q` by `nb`. -/
def splice (lines : List String) (p q : Nat) (nb : List String) : List String :=
  lines.take p ++ nb ++ lines.drop q

/-- Source lines 203-223: search first in the window starting 40 lines before
the hint `(old_start - 1) + offset` (clamped at 0), then from the beginning of
the file. -/
def tryFind (lines expected : List String) (oldStart : Nat) (offset : Int) :
    Option (Nat × Nat) :=
  match find_flexible_match lines expected
      ((((oldStart : Int) - 1) + offset) - 40).toNat with
  | some r => some r
  | none => find_flexible_match lines expected 0

/-- One iteration of the hunk loop (source lines 133-251) on the state
`(patched_lines_raw, current_file_offset)`.  A group whose stripped text is
empty or does not open with `"@@"` is skipped; a malformed header or an
unlocatable expected block aborts; a pure insertion splices the new block at
the clamped hint position; a replacement searches a 40-line window before the
hint and then the whole file, then splices. -/
def applyHunk (st : List String × Int) (g : List String) :
    Except PatchError (List String × Int) :=
  match stripGroup g with
  | [] => .ok st
  | header :: body =>
    if pyStartsWith header "@@" then
      match parseHunkHeader header with
      | none => .error (.malformedHeader header)
      | some oldStart =>
        if (interpretBody body).1 = [] then
          if (interpretBody body).2 = [] then .ok st
          else
            .ok (splice st.1 (insPoint oldStart st.2 st.1.length)
                   (insPoint oldStart st.2 st.1.length) (interpretBody body).2,
                 st.2 + ((interpretBody body).2.length : Int))
        else
          match tryFind st.1 (interpretBody body).1 oldStart st.2 with
          | some r =>
            .ok (splice st.1 r.1 r.2 (interpretBody body).2,
                 st.2 + (((interpretBody body).2.length : Int)) -
                   ((r.2 : Int) - (r.1 : Int)))
          | none => .error (.hunkMatchFailure header (interpretBody body).1)
    else .ok st

/-- The hunk loop folded over all groups; the first error aborts the run. -/
def applyHunks (groups : List (List String)) (st : List String × Int) :
    Except PatchError (List String × Int) :=
  match groups with
  | [] => .ok st
  | g :: gs =>
    match applyHunk st g with
    | .error e => .error e
    | .ok st1 => applyHunks gs st1

/-- Result of the pure part of a patch run. -/
inductive PatchOutcome : Type
  | noWrite
  | write (lines : List String)
  | fail (e : PatchError)
deriving DecidableEq, Repr

/-- Source lines 116-251 on the already-read line lists.  `re.split` yields the
text before the first `"@@"` line as a first part; that part is either popped
(line 120-126) or skipped by the loop (lines 135-138), so only the `"@@"`
groups matter, and the early no-op return at line 128 fires exactly when there
is no `"@@"` line at all.  `noWrite` marks the returns that happen before the
final write (lines 86 and 129). -/
def fuzzyPatchCore (diffLines targetLines : List String) : PatchOutcome :=
  if diffLines = [] then .noWrite
  else
    let groups := groupHunks (diffLines.dropWhile (fun l => !startsHunk l))
    if groups = [] then .noWrite
    else
      match applyHunks groups (targetLines, 0) with
      | .ok st => .write st.1
      | .error e => .fail e

/-- Source lines 91-95: the diff describes the creation of a new file when its
first line starts with `---` and mentions `/dev/null` or `a/dev/null`. -/
def isNewFileDiff (diffLines : List String) : Bool :=
  match diffLines with
  | [] => false
  | l0 :: _ =>
    pyStartsWith l0 "---" &&
      (containsSub l0 "/dev/null" || containsSub l0 "a/dev/null")

/-- The source function `apply_fuzzy_patch(target_file_path, diff_file_path)`
with the filesystem
passed explicitly: returns the filesystem after the call together with the
boolean the Python function returns.  Reading a missing diff or (outside
creation mode) a missing target fails without touching the filesystem; the
single write of the patched content (source lines 253-257) happens only after
every hunk has been applied. -/
def apply_fuzzy_patch (fs : String → Option String) (targetPath diffPath : String) :
    (String → Option String) × Bool :=
  match fs diffPath with
  | none => (fs, false)
  | some diffContent =>
    if toLines diffContent = [] then (fs, true)
    else
      match (if isNewFileDiff (toLines diffContent) then some []
             else
               match fs targetPath with
               | none => none
               | some tcontent => some (toLines tcontent) : Option (List String)) with
      | none => (fs, false)
      | some targetLines =>
        match fuzzyPatchCore (toLines diffContent) targetLines with
        | .noWrite => (fs, true)
        | .fail _ => (fs, false)
        | .write ls =>
          (fun p => if p = targetPath then some (fromLines ls) else fs p, true)

/-- The result of a run in creation mode: the target is never read, patching
starts from the empty line sequence. -/
def creationResult (fs : String → Option String) (targetPath : String)
    (diffLines : List String) : (String → Option String) × Bool :=
  match fuzzyPatchCore diffLines [] with
  | .noWrite => (fs, true)
  | .fail _ => (fs, false)
  | .write ls =>
    (fun p => if p = targetPath then some (fromLines ls) else fs p, true)

/-! ## Declarative matching predicate (for the matcher claims) -/

/-- Declarative matching: `BlockMatch target i e block` says the entries of
`block` occur in order in the
rstripped lines of `target`, the first at index `i`, the last just before the
exclusive end `e`, with only blank lines strictly between consecutive
entries. -/
inductive BlockMatch (target : List String) : Nat → Nat → List String → Prop
  | single (i : Nat) (c : String) (hi : i < target.length)
      (hc : rstrip (target.getD i "") = c) :
      BlockMatch target i (i + 1) [c]
  | cons (i j e : Nat) (c : String) (cs : List String) (hi : i < target.length)
      (hc : rstrip (target.getD i "") = c) (hij : i < j)
      (hblank : ∀ k, i < k → k < j → rstrip (target.getD k "") = "")
      (hrest : BlockMatch target j e cs) :
      BlockMatch target i e (c :: cs)

/-! ## Basic bridging lemmas between suffix lists and indices -/

theorem dropEq_cons {α : Type} (d : α) :
    ∀ (l : List α) (t : Nat) (a : α) (rest : List α), l.drop t = a :: rest →
    t < l.length ∧ l.getD t d = a ∧ l.drop (t + 1) = rest := by
  intro l
  induction l with
  | nil => intro t a rest h; simp at h
  | cons b tl ih =>
    intro t a rest h
    cases t with
    | zero =>
      simp only [List.drop_zero] at h
      cases h
      refine ⟨by simp, rfl, rfl⟩
    | succ t =>
      have h2 : tl.drop t = a :: rest := h
      obtain ⟨h3, h4, h5⟩ := ih t a rest h2
      exact ⟨by simpa using Nat.succ_lt_succ h3, h4, h5⟩

theorem drop_of_lt {α : Type} (d : α) :
    ∀ (l : List α) (t : Nat), t < l.length → l.drop t = l.getD t d :: l.drop (t + 1) := by
  intro l
  induction l with
  | nil => intro t h; simp at h
  | cons b tl ih =>
    intro t h
    cases t with
    | zero => rfl
    | succ t => exact ih t (by simpa using Nat.lt_of_succ_lt_succ h)

theorem getD_mem {α : Type} (d : α) :
    ∀ (l : List α) (p : Nat), p < l.length → l.getD p d ∈ l := by
  intro l
  induction l with
  | nil => intro p h; simp at h
  | cons b tl ih =>
    intro p h
    cases p with
    | zero => exact List.mem_cons_self b tl
    | succ p => exact List.mem_cons_of_mem b (ih p (by simpa using Nat.lt_of_succ_lt_succ h))

/-! ## Properties of the walk (matcher inner loop) -/

theorem walk_empty (target core : List String) (p t : Nat)
    (h : target.length ≤ t) : walk target core p t = (p, t) := by
  unfold walk
  rw [List.drop_eq_nil_of_le h]
  rfl

theorem walk_step (target core : List String) (p t : Nat) (h : t < target.length) :
    walk target core p t =
      if p < core.length then
        if rstrip (target.getD t "") = core.getD p "" then walk target core (p + 1) (t + 1)
        else if rstrip (target.getD t "") ≠ "" then (p, t)
        else walk target core p (t + 1)
      else (p, t) := by
  conv_lhs => rw [walk, drop_of_lt "" target t h]
  rfl

/-- Bounds of `BlockMatch`: the match is non-empty and stays inside the file. -/
theorem bm_bounds {target : List String} {i e : Nat} {b : List String}
    (h : BlockMatch target i e b) : i < e ∧ e ≤ target.length := by
  induction h with
  | single i c hi _ => exact ⟨Nat.lt_succ_self i, hi⟩
  | cons i j e c cs _ _ hij _ _ ih => exact ⟨Nat.lt_of_lt_of_le hij (Nat.le_of_lt ih.1), ih.2⟩

theorem bm_ne_nil {target : List String} {i e : Nat} {b : List String}
    (h : BlockMatch target i e b) : b ≠ [] := by
  cases h <;> simp

theorem bm_head {target : List String} {i e : Nat} {c : String} {cs : List String}
    (h : BlockMatch target i e (c :: cs)) :
    i < target.length ∧ rstrip (target.getD i "") = c := by
  cases h with
  | single _ _ hi hc => exact ⟨hi, hc⟩
  | cons _ _ _ _ _ hi hc _ _ _ => exact ⟨hi, hc⟩

/-- Skipping blank target lines does not change the walk when the next awaited
pattern entry is non-blank. -/
theorem walk_skip (target core : List String) (p : Nat) (hp : p < core.length)
    (hc : core.getD p "" ≠ "") (i : Nat) (hi : i ≤ target.length) :
    ∀ n t, i - t ≤ n → t ≤ i →
    (∀ k, t ≤ k → k < i → rstrip (target.getD k "") = "") →
    walk target core p t = walk target core p i := by
  intro n
  induction n with
  | zero =>
    intro t h1 h2 _
    have : t = i := by omega
    rw [this]
  | succ n ih =>
    intro t h1 h2 hb
    by_cases he : t = i
    · rw [he]
    · have htl : t < i := by omega
      have h3 : t < target.length := by omega
      rw [walk_step target core p t h3, if_pos hp]
      have hbt : rstrip (target.getD t "") = "" := hb t le_rfl htl
      rw [hbt, if_neg (fun hEq => hc hEq.symm), if_neg (by simp)]
      exact ih (t + 1) (by omega) (by omega) (fun k hk1 hk2 => hb k (by omega) hk2)

/-- If the remaining pattern entries (from `p` on) match declaratively starting
exactly at `i`, the walk from `(p, i)` consumes them all and stops at the
declarative end. -/
theorem walk_exact (target core : List String) (hne : ∀ c ∈ core, c ≠ "")
    {i e : Nat} {b : List String} (h : BlockMatch target i e b) :
    ∀ p, core.drop p = b → walk target core p i = (core.length, e) := by
  induction h with
  | single i c hi hc =>
    intro p hdrop
    have hlen : (core.drop p).length = 1 := by rw [hdrop]; rfl
    rw [List.length_drop] at hlen
    have hp : p < core.length := by omega
    have hgd : core.getD p "" = c := (dropEq_cons "" core p c [] hdrop).2.1
    rw [walk_step target core p i hi, if_pos hp, hc, hgd, if_pos rfl]
    have hp1 : core.length = p + 1 := by omega
    by_cases h2 : i + 1 < target.length
    · rw [walk_step target core (p + 1) (i + 1) h2, if_neg (by omega), hp1]
    · rw [walk_empty target core (p + 1) (i + 1) (by omega), hp1]
  | cons i j e c cs hi hc hij hblank hrest ih =>
    intro p hdrop
    obtain ⟨hp, hgd, hdrop1⟩ := dropEq_cons "" core p c cs hdrop
    rw [walk_step target core p i hi, if_pos hp, hc, hgd, if_pos rfl]
    have hcs : cs ≠ [] := bm_ne_nil hrest
    have hp1 : p + 1 < core.length := by
      have hl : (core.drop (p + 1)).length = cs.length := by rw [hdrop1]
      rw [List.length_drop] at hl
      have := List.length_pos.mpr hcs
      omega
    have hcd : core.getD (p + 1) "" ≠ "" := hne _ (getD_mem "" core (p + 1) hp1)
    have hj : j ≤ target.length :=
      Nat.le_of_lt (Nat.lt_of_lt_of_le (bm_bounds hrest).1 (bm_bounds hrest).2)
    rw [walk_skip target core (p + 1) hp1 hcd j hj (j - (i + 1)) (i + 1) (by omega) (by omega)
        (fun k hk1 hk2 => hblank k (by omega) hk2)]
    exact ih (p + 1) hdrop1

/-- A declarative match of all of `core` starting at `i` makes the walk started
after the matched head succeed. -/
theorem walk_complete_start (target core : List String) (hne : ∀ c ∈ core, c ≠ "")
    {i e : Nat} (h : BlockMatch target i e core) :
    walk target core 1 (i + 1) = (core.length, e) := by
  cases h with
  | single i c hi hc =>
    by_cases h2 : i + 1 < target.length
    · rw [walk_step _ _ _ _ h2, if_neg (by simp)]; rfl
    · rw [walk_empty _ _ _ _ (by omega)]; rfl
  | cons i j e c cs hi hc hij hblank hrest =>
    have hcs : cs ≠ [] := bm_ne_nil hrest
    have h1lt : 1 < (c :: cs).length := by
      have := List.length_pos.mpr hcs
      simp only [List.length_cons]
      omega
    have hcd : (c :: cs).getD 1 "" ≠ "" := hne _ (getD_mem "" _ 1 h1lt)
    have hj : j ≤ target.length :=
      Nat.le_of_lt (Nat.lt_of_lt_of_le (bm_bounds hrest).1 (bm_bounds hrest).2)
    rw [walk_skip target (c :: cs) 1 h1lt hcd j hj (j - (i + 1)) (i + 1) (by omega) (by omega)
        (fun k hk1 hk2 => hblank k (by omega) hk2)]
    exact walk_exact target (c :: cs) hne hrest 1 rfl

/-- Soundness of the walk: if it consumes all of `core` from `(p, t)`, the
remaining entries match declaratively at some `i ≥ t` reached over blanks. -/
theorem walk_sound (target core : List String) :
    ∀ n t p e, target.length - t ≤ n → p < core.length →
    walk target core p t = (core.length, e) →
    ∃ i, t ≤ i ∧ (∀ k, t ≤ k → k < i → rstrip (target.getD k "") = "") ∧
      BlockMatch target i e (core.drop p) := by
  intro n
  induction n with
  | zero =>
    intro t p e hn hp hw
    rw [walk_empty _ _ _ _ (by omega)] at hw
    rw [Prod.mk.injEq] at hw
    omega
  | succ n ih =>
    intro t p e hn hp hw
    by_cases ht : t < target.length
    · rw [walk_step _ _ _ _ ht, if_pos hp] at hw
      by_cases hm : rstrip (target.getD t "") = core.getD p ""
      · rw [if_pos hm] at hw
        by_cases hlast : p + 1 < core.length
        · obtain ⟨i1, hi1, hb1, hbm⟩ := ih (t + 1) (p + 1) e (by omega) hlast hw
          refine ⟨t, le_rfl, fun k hk1 hk2 => absurd hk2 (by omega), ?_⟩
          rw [drop_of_lt "" core p hp]
          exact BlockMatch.cons t i1 e _ _ ht hm (by omega)
            (fun k hk1 hk2 => hb1 k (by omega) hk2) hbm
        · have hstop : walk target core (p + 1) (t + 1) = (p + 1, t + 1) := by
            by_cases h2 : t + 1 < target.length
            · rw [walk_step _ _ _ _ h2, if_neg hlast]
            · exact walk_empty _ _ _ _ (by omega)
          rw [hstop, Prod.mk.injEq] at hw
          refine ⟨t, le_rfl, fun k hk1 hk2 => absurd hk2 (by omega), ?_⟩
          rw [drop_of_lt "" core p hp, List.drop_eq_nil_of_le (by omega), ← hw.2]
          exact BlockMatch.single t _ ht hm
      · rw [if_neg hm] at hw
        by_cases hb : rstrip (target.getD t "") ≠ ""
        · rw [if_pos hb, Prod.mk.injEq] at hw
          omega
        · rw [if_neg hb] at hw
          push_neg at hb
          obtain ⟨i1, hi1, hb1, hbm⟩ := ih (t + 1) p e (by omega) hp hw
          refine ⟨i1, by omega, fun k hk1 hk2 => ?_, hbm⟩
          rcases Nat.eq_or_lt_of_le hk1 with h | h
          · rw [← h]; exact hb
          · exact hb1 k (by omega) hk2
    · rw [walk_empty _ _ _ _ (by omega), Prod.mk.injEq] at hw
      omega

/-! ## Properties of the first-occurrence scan -/

theorem findFrom_sound (target : List String) (pat : String) :
    ∀ l s j, l = target.drop s → findFromAux pat l s = some j →
    s ≤ j ∧ j < target.length ∧ rstrip (target.getD j "") = pat ∧
      ∀ k, s ≤ k → k < j → rstrip (target.getD k "") ≠ pat := by
  intro l
  induction l with
  | nil => intro s j _ h; simp [findFromAux] at h
  | cons a rest ih =>
    intro s j hl h
    obtain ⟨hs, hgd, hrest⟩ := dropEq_cons "" target s a rest hl.symm
    simp only [findFromAux] at h
    by_cases hm : rstrip a = pat
    · rw [if_pos hm, Option.some.injEq] at h
      rw [← h]
      exact ⟨le_rfl, hs, by rw [hgd]; exact hm, fun k hk1 hk2 => absurd hk2 (by omega)⟩
    · rw [if_neg hm] at h
      obtain ⟨h1, h2, h3, h4⟩ := ih (s + 1) j hrest.symm h
      refine ⟨by omega, h2, h3, fun k hk1 hk2 => ?_⟩
      rcases Nat.eq_or_lt_of_le hk1 with hk | hk
      · rw [← hk, hgd]; exact hm
      · exact h4 k (by omega) hk2

theorem findFrom_none (target : List String) (pat : String) :
    ∀ l s, l = target.drop s → findFromAux pat l s = none →
    ∀ k, s ≤ k → k < target.length → rstrip (target.getD k "") ≠ pat := by
  intro l
  induction l with
  | nil =>
    intro s hl _ k hk1 hk2 _
    have : (target.drop s).length = 0 := by rw [← hl]; rfl
    rw [List.length_drop] at this
    omega
  | cons a rest ih =>
    intro s hl h
    obtain ⟨hs, hgd, hrest⟩ := dropEq_cons "" target s a rest hl.symm
    simp only [findFromAux] at h
    by_cases hm : rstrip a = pat
    · rw [if_pos hm] at h; exact absurd h (by simp)
    · rw [if_neg hm] at h
      intro k hk1 hk2
      rcases Nat.eq_or_lt_of_le hk1 with hk | hk
      · rw [← hk, hgd]; exact hm
      · exact ih (s + 1) hrest.symm h k (by omega) hk2

theorem findFirstFrom_sound (target : List String) (pat : String) (s j : Nat)
    (h : findFirstFrom target pat s = some j) :
    s ≤ j ∧ j < target.length ∧ rstrip (target.getD j "") = pat ∧
      ∀ k, s ≤ k → k < j → rstrip (target.getD k "") ≠ pat :=
  findFrom_sound target pat (target.drop s) s j rfl h

theorem findFirstFrom_none (target : List String) (pat : String) (s : Nat)
    (h : findFirstFrom target pat s = none) :
    ∀ k, s ≤ k → k < target.length → rstrip (target.getD k "") ≠ pat :=
  findFrom_none target pat (target.drop s) s rfl h

/-! ## Soundness and completeness of the candidate loop -/

theorem ffm_sound (target core : List String) (hcore : core ≠ []) :
    ∀ l s m e, l = target.drop s → ffmAux target core l s = some (m, e) →
    s ≤ m ∧ BlockMatch target m e core := by
  intro l
  induction l with
  | nil => intro s m e _ h; simp [ffmAux] at h
  | cons a rest ih =>
    intro s m e hl h
    obtain ⟨hs, _, hrest⟩ := dropEq_cons "" target s a rest hl.symm
    simp only [ffmAux] at h
    cases hf : findFirstFrom target (core.headD "") s with
    | none => simp only [hf] at h; exact absurd h (by simp)
    | some j =>
      simp only [hf] at h
      obtain ⟨hsj, hjlen, hjpat, _⟩ := findFirstFrom_sound target _ s j hf
      by_cases hw : (walk target core 1 (j + 1)).1 = core.length
      · rw [if_pos hw, Option.some.injEq, Prod.mk.injEq] at h
        obtain ⟨hm, he⟩ := h
        rw [← hm]
        refine ⟨hsj, ?_⟩
        have hwe : walk target core 1 (j + 1) = (core.length, e) := by
          rw [Prod.ext_iff]
          exact ⟨hw, he⟩
        obtain ⟨c0, cs, hc0⟩ : ∃ c0 cs, core = c0 :: cs := by
          cases core with
          | nil => exact absurd rfl hcore
          | cons c0 cs => exact ⟨c0, cs, rfl⟩
        cases cs with
        | nil =>
          have hwv : walk target core 1 (j + 1) = (1, j + 1) := by
            rw [hc0]
            by_cases h2 : j + 1 < target.length
            · rw [walk_step _ _ _ _ h2, if_neg (by simp)]
            · rw [walk_empty _ _ _ _ (by omega)]
          rw [hwv, Prod.mk.injEq] at hwe
          rw [hc0, ← hwe.2]
          refine BlockMatch.single j c0 hjlen ?_
          rw [hjpat, hc0]
          rfl
        | cons c1 cs1 =>
          have h1lt : 1 < core.length := by rw [hc0]; simp
          obtain ⟨i1, hi1, hb1, hbm⟩ :=
            walk_sound target core (target.length - (j + 1)) (j + 1) 1 e le_rfl h1lt hwe
          rw [hc0]
          refine BlockMatch.cons j i1 e c0 (c1 :: cs1) hjlen ?_ (by omega)
            (fun k hk1 hk2 => hb1 k (by omega) hk2) ?_
          · rw [hjpat, hc0]; rfl
          · have : core.drop 1 = c1 :: cs1 := by rw [hc0]; rfl
            rw [← this]
            exact hbm
      · rw [if_neg hw] at h
        obtain ⟨h1, h2⟩ := ih (s + 1) m e hrest.symm h
        exact ⟨by omega, h2⟩

theorem ffm_complete (target core : List String) (hne : ∀ c ∈ core, c ≠ "")
    {i e : Nat} (hbm : BlockMatch target i e core) :
    ∀ l s, l = target.drop s → s ≤ i → (ffmAux target core l s).isSome := by
  have hilen : i < target.length :=
    Nat.lt_of_lt_of_le (bm_bounds hbm).1 (bm_bounds hbm).2
  have hhead : rstrip (target.getD i "") = core.headD "" := by
    cases hc0 : core with
    | nil => exact absurd hc0 (bm_ne_nil hbm)
    | cons c0 cs =>
      rw [hc0] at hbm
      rw [(bm_head hbm).2]
      rfl
  intro l
  induction l with
  | nil =>
    intro s hl hs
    exfalso
    have : (target.drop s).length = 0 := by rw [← hl]; rfl
    rw [List.length_drop] at this
    omega
  | cons a rest ih =>
    intro s hl hs
    obtain ⟨hslen, _, hrest⟩ := dropEq_cons "" target s a rest hl.symm
    simp only [ffmAux]
    cases hf : findFirstFrom target (core.headD "") s with
    | none => exact absurd hhead (findFirstFrom_none target _ s hf i hs hilen)
    | some j =>
      obtain ⟨hsj, hjlen, hjpat, hjmin⟩ := findFirstFrom_sound target _ s j hf
      have hji : j ≤ i := by
        by_contra hlt
        push_neg at hlt
        exact hjmin i hs hlt hhead
      simp only [hf]
      by_cases hw : (walk target core 1 (j + 1)).1 = core.length
      · rw [if_pos hw]; rfl
      · rw [if_neg hw]
        have hjne : j ≠ i := by
          intro heq
          rw [heq] at hw
          rw [walk_complete_start target core hne hbm] at hw
          exact hw rfl
        exact ih (s + 1) hrest.symm (by omega)

/-! ## Top-level matcher lemmas -/

theorem filter_entries_ne (hunk : List String) :
    ∀ c ∈ hunk.filter (fun l => l != ""), c ≠ "" := by
  intro c hc
  have := (List.mem_filter.mp hc).2
  exact bne_iff_ne.mp this

theorem find_sound (target hunk : List String) (s m e : Nat)
    (hcore : hunk.filter (fun l => l != "") ≠ [])
    (h : find_flexible_match target hunk s = some (m, e)) :
    s ≤ m ∧ BlockMatch target m e (hunk.filter (fun l => l != "")) := by
  unfold find_flexible_match at h
  rw [if_neg hcore] at h
  exact ffm_sound target _ hcore _ s m e rfl h

theorem find_isSome_of_bm (target hunk : List String) (s i e : Nat)
    (hbm : BlockMatch target i e (hunk.filter (fun l => l != ""))) (hs : s ≤ i) :
    (find_flexible_match target hunk s).isSome := by
  unfold find_flexible_match
  rw [if_neg (bm_ne_nil hbm)]
  exact ffm_complete target _ (filter_entries_ne hunk) hbm _ s rfl hs

theorem exact_sound (target hunk : List String) :
    ∀ l s m e, l = target.drop s → s ≤ target.length →
    exactAux hunk l s = some (m, e) → s ≤ m ∧ m ≤ e ∧ e ≤ target.length := by
  intro l
  induction l with
  | nil =>
    intro s m e hl hslen h
    simp only [exactAux] at h
    by_cases hg : hunk.length ≤ ([] : List String).length
    · rw [if_pos hg] at h
      by_cases hm : (([] : List String).take hunk.length).map rstrip = hunk
      · rw [if_pos hm, Option.some.injEq, Prod.mk.injEq] at h
        simp only [List.length_nil] at hg
        omega
      · rw [if_neg hm] at h
        exact absurd h (by simp)
    · rw [if_neg hg] at h
      exact absurd h (by simp)
  | cons a rest ih =>
    intro s m e hl hslen h
    obtain ⟨hs, _, hrest⟩ := dropEq_cons "" target s a rest hl.symm
    simp only [exactAux] at h
    by_cases hg : hunk.length ≤ (a :: rest).length
    · rw [if_pos hg] at h
      by_cases hm : ((a :: rest).take hunk.length).map rstrip = hunk
      · rw [if_pos hm, Option.some.injEq, Prod.mk.injEq] at h
        have hll : (a :: rest).length = target.length - s := by
          rw [hl, List.length_drop]
        omega
      · rw [if_neg hm] at h
        obtain ⟨h1, h2, h3⟩ := ih (s + 1) m e hrest.symm (by omega) h
        exact ⟨by omega, h2, h3⟩
    · rw [if_neg hg] at h
      exact absurd h (by simp)

/-- Any successful match lies inside the file, with start before end. -/
theorem find_bounds (target hunk : List String) (s m e : Nat)
    (h : find_flexible_match target hunk s = some (m, e)) :
    m ≤ e ∧ e ≤ target.length := by
  unfold find_flexible_match at h
  by_cases hcore : hunk.filter (fun l => l != "") = []
  · rw [if_pos hcore] at h
    by_cases hs : s ≤ target.length
    · rw [if_pos hs] at h
      obtain ⟨h1, h2, h3⟩ := exact_sound target hunk _ s m e rfl hs h
      exact ⟨h2, h3⟩
    · rw [if_neg hs] at h
      exact absurd h (by simp)
  · rw [if_neg hcore] at h
    obtain ⟨_, hbm⟩ := ffm_sound target _ hcore _ s m e rfl h
    exact ⟨Nat.le_of_lt (bm_bounds hbm).1, (bm_bounds hbm).2⟩

/-! ## Offset invariant of the applier -/

/-- The insertion point never exceeds the file length. -/
theorem insPoint_le (oldStart : Nat) (offset : Int) (len : Nat) :
    insPoint oldStart offset len ≤ len := by
  unfold insPoint
  omega

/-- Length of a splice, for in-range bounds. -/
theorem length_splice (lines : List String) (p q : Nat) (nb : List String)
    (hpq : p ≤ q) (hq : q ≤ lines.length) :
    (splice lines p q nb).length = p + nb.length + (lines.length - q) := by
  unfold splice
  simp only [List.length_append, List.length_take, List.length_drop]
  omega

/-- Any result of the windowed-then-full search satisfies the match bounds. -/
theorem tryFind_bounds (lines expected : List String) (oldStart : Nat)
    (offset : Int) (r : Nat × Nat)
    (h : tryFind lines expected oldStart offset = some r) :
    r.1 ≤ r.2 ∧ r.2 ≤ lines.length := by
  unfold tryFind at h
  cases hf1 : find_flexible_match lines expected
      ((((oldStart : Int) - 1) + offset) - 40).toNat with
  | some r1 =>
    rw [hf1, Option.some.injEq] at h
    rw [← h]
    exact find_bounds lines expected _ r1.1 r1.2 (by rw [← hf1])
  | none =>
    rw [hf1] at h
    exact find_bounds lines expected 0 r.1 r.2 (by rw [← h])

/-- Each applied hunk changes the cumulative offset by exactly the change in
the number of file lines. -/
theorem applyHunk_offset (lines : List String) (o : Int) (g : List String)
    (l2 : List String) (o2 : Int) (h : applyHunk (lines, o) g = .ok (l2, o2)) :
    o2 - o = (l2.length : Int) - (lines.length : Int) := by
  unfold applyHunk at h
  cases hsg : stripGroup g with
  | nil =>
    simp only [hsg, Except.ok.injEq, Prod.mk.injEq] at h
    obtain ⟨h1, h2⟩ := h
    rw [← h1, ← h2]
    omega
  | cons header body =>
    simp only [hsg] at h
    by_cases hsw : pyStartsWith header "@@"
    · rw [if_pos hsw] at h
      cases hph : parseHunkHeader header with
      | none => simp only [hph] at h; exact absurd h (by simp)
      | some oldStart =>
        simp only [hph] at h
        by_cases hexp : (interpretBody body).1 = []
        · rw [if_pos hexp] at h
          by_cases hnb : (interpretBody body).2 = []
          · rw [if_pos hnb] at h
            simp only [Except.ok.injEq, Prod.mk.injEq] at h
            obtain ⟨h1, h2⟩ := h
            rw [← h1, ← h2]
            omega
          · rw [if_neg hnb] at h
            simp only [Except.ok.injEq, Prod.mk.injEq] at h
            obtain ⟨h1, h2⟩ := h
            have hple := insPoint_le oldStart o lines.length
            rw [← h1, ← h2,
              length_splice lines _ _ _ le_rfl hple]
            push_cast
            omega
        · rw [if_neg hexp] at h
          cases hr0 : tryFind lines (interpretBody body).1 oldStart o with
          | none => simp only [hr0] at h; exact absurd h (by simp)
          | some r =>
            simp only [hr0] at h
            obtain ⟨hb1, hb2⟩ := tryFind_bounds lines _ oldStart o r hr0
            simp only [Except.ok.injEq, Prod.mk.injEq] at h
            obtain ⟨h1, h2⟩ := h
            rw [← h1, ← h2, length_splice lines _ _ _ hb1 hb2]
            push_cast
            omega
    · rw [if_neg hsw] at h
      simp only [Except.ok.injEq, Prod.mk.injEq] at h
      obtain ⟨h1, h2⟩ := h
      rw [← h1, ← h2]
      omega

/-- The offset change telescopes over a whole run. -/
theorem applyHunks_offset :
    ∀ (groups : List (List String)) (st st2 : List String × Int),
    applyHunks groups st = .ok st2 →
    st2.2 - st.2 = (st2.1.length : Int) - (st.1.length : Int) := by
  intro groups
  induction groups with
  | nil =>
    intro st st2 h
    simp only [applyHunks, Except.ok.injEq] at h
    rw [h]
    omega
  | cons g gs ih =>
    intro st st2 h
    simp only [applyHunks] at h
    cases hg : applyHunk st g with
    | error e => rw [hg] at h; simp at h
    | ok st1 =>
      rw [hg] at h
      have h1 := applyHunk_offset st.1 st.2 g st1.1 st1.2 (by rw [← hg])
      have h2 := ih st1 st2 h
      omega

/-! ## Claim theorems -/

/-- C3: with at least one non-blank entry in the expected block, the flexible
matcher succeeds if and only if the non-blank entries of the block occur in
order in the rstripped file lines at or after the search start, separated only
by blank file lines (blank block entries are dropped, trailing whitespace of
file lines is ignored). -/
theorem c3_flexible_match_iff (target hunk : List String) (s : Nat)
    (hcore : hunk.filter (fun l => l != "") ≠ []) :
    (find_flexible_match target hunk s).isSome = true ↔
      ∃ i e, s ≤ i ∧ BlockMatch target i e (hunk.filter (fun l => l != "")) := by
  constructor
  · intro h
    obtain ⟨⟨m, e⟩, hme⟩ := Option.isSome_iff_exists.mp h
    obtain ⟨h1, h2⟩ := find_sound target hunk s m e hcore hme
    exact ⟨m, e, h1, h2⟩
  · rintro ⟨i, e, hs, hbm⟩
    exact find_isSome_of_bm target hunk s i e hbm hs

theorem c3_witness :
    (find_flexible_match ["a", "", "b"] ["a", "", "b"] 0).isSome = true ↔
      ∃ i e, 0 ≤ i ∧
        BlockMatch ["a", "", "b"] i e (["a", "", "b"].filter (fun l => l != "")) :=
  c3_flexible_match_iff ["a", "", "b"] ["a", "", "b"] 0 (by decide)

/-- C2 as stated is false: at the input below, the first occurrence of the
first expected entry is at index 0 and the walk from it stops on the non-blank
mismatch `"q"`, yet the search call does not fail: the outer loop retries and
succeeds at the later occurrence at index 2.  The three conjuncts record the
premise of the claim and the successful result. -/
theorem c2_counterexample :
    findFirstFrom ["a", "q", "a", "b"]
        ((["a", "b"].filter (fun l => l != "")).headD "") 0 = some 0 ∧
      (walk ["a", "q", "a", "b"] (["a", "b"].filter (fun l => l != "")) 1 (0 + 1)).1 ≠
        (["a", "b"].filter (fun l => l != "")).length ∧
      find_flexible_match ["a", "q", "a", "b"] ["a", "b"] 0 = some (2, 4) :=
  ⟨rfl, by decide, rfl⟩

/-- C2 amended: when the walk from the first found occurrence of the first
expected entry fails on a non-blank mismatch, only that candidate start is
abandoned: the scan continues from the next index (so later occurrences of
the first expected entry are tried), it does not fail immediately. -/
theorem c2_amended_no_immediate_failure (target hunk : List String) (s j : Nat)
    (hcore : hunk.filter (fun l => l != "") ≠ [])
    (hf : findFirstFrom target ((hunk.filter (fun l => l != "")).headD "") s = some j)
    (hw : (walk target (hunk.filter (fun l => l != "")) 1 (j + 1)).1 ≠
      (hunk.filter (fun l => l != "")).length) :
    find_flexible_match target hunk s = find_flexible_match target hunk (s + 1) := by
  obtain ⟨hsj, hjlen, _, _⟩ := findFirstFrom_sound target _ s j hf
  unfold find_flexible_match
  rw [if_neg hcore, if_neg hcore]
  have hs : s < target.length := by omega
  rw [drop_of_lt "" target s hs]
  simp only [ffmAux, hf]
  rw [if_neg hw]

theorem c2_amended_witness :
    find_flexible_match ["a", "q", "a", "b"] ["a", "b"] 0 =
      find_flexible_match ["a", "q", "a", "b"] ["a", "b"] (0 + 1) :=
  c2_amended_no_immediate_failure ["a", "q", "a", "b"] ["a", "b"] 0 0
    (by decide) rfl (by decide)

/-- C10: a non-empty hunk body line whose first character is none of the three
markers contributes to neither derived block and raises no error: the rest of
the body is interpreted as if the line were absent. -/
theorem c10_unknown_marker_ignored (l : String) (op : Char) (cs : List Char)
    (body : List String) (hl : l.toList = op :: cs)
    (h1 : op ≠ ' ') (h2 : op ≠ '-') (h3 : op ≠ '+') :
    interpretBody (l :: body) = interpretBody body := by
  simp only [interpretBody, hl]
  rw [if_neg h1, if_neg h2, if_neg h3]

theorem c10_witness : interpretBody ["c ", " a"] = interpretBody [" a"] :=
  c10_unknown_marker_ignored "c " 'c' [' '] [" a"] rfl
    (by decide) (by decide) (by decide)

/-- C4: the concrete scenario of the spec: target `a`, `b`, `c`; one hunk with
header `@@ -1,3 +1,3 @@` and body ` a`, `-b`, `+B`, `c ` patches the file to
`a`, `B`, `c` and the run succeeds. -/
theorem c4_concrete_scenario :
    fuzzyPatchCore (toLines "@@ -1,3 +1,3 @@\n a\n-b\n+B\nc \n") (toLines "a\nb\nc\n") =
        .write ["a", "B", "c"] ∧
      (apply_fuzzy_patch
          (fun p => if p = "t" then some "a\nb\nc\n"
            else if p = "d" then some "@@ -1,3 +1,3 @@\n a\n-b\n+B\nc \n" else none)
          "t" "d").2 = true ∧
      (apply_fuzzy_patch
          (fun p => if p = "t" then some "a\nb\nc\n"
            else if p = "d" then some "@@ -1,3 +1,3 @@\n a\n-b\n+B\nc \n" else none)
          "t" "d").1 "t" = some "a\nB\nc\n" :=
  ⟨rfl, rfl, rfl⟩

/-- C5: at every point of a patch run (i.e. after any list of applied hunk
groups), the cumulative offset equals the length of the current line sequence
minus the length of the starting line sequence, which is the total number of
lines added minus lines removed so far. -/
theorem c5_offset_invariant (target : List String) (groups : List (List String))
    (l : List String) (o : Int)
    (h : applyHunks groups (target, 0) = .ok (l, o)) :
    o = (l.length : Int) - (target.length : Int) := by
  have h2 := applyHunks_offset groups (target, 0) (l, o) h
  dsimp only at h2
  omega

theorem c5_witness :
    (0 : Int) = ((["a", "B", "c"].length : Int)) - ((["a", "b", "c"].length : Int)) :=
  c5_offset_invariant ["a", "b", "c"] [["@@ -1,3 +1,3 @@", " a", "-b", "+B", "c "]]
    ["a", "B", "c"] 0 rfl

/-- C6: a hunk with empty expected block and non-empty new block splices the
new block at index `max(0, min(len(FileLines), (oldStart = 0 ? 0 : oldStart -
1) + cumulativeOffset))` and increases the offset by the length of the new
block; in particular a first hunk (offset 0) with `oldStart = 0` inserts at
the very beginning. -/
theorem c6_pure_insertion (lines : List String) (offset : Int) (g : List String)
    (header : String) (body : List String) (oldStart : Nat) (newBlock : List String)
    (hsg : stripGroup g = header :: body)
    (hsw : pyStartsWith header "@@" = true)
    (hph : parseHunkHeader header = some oldStart)
    (hib : interpretBody body = ([], newBlock))
    (hnb : newBlock ≠ []) :
    applyHunk (lines, offset) g =
        .ok (lines.take ((max 0 (min ((if oldStart = 0 then 0 else (oldStart : Int) - 1)
                + offset) ((lines.length : Int)))).toNat) ++ newBlock ++
             lines.drop ((max 0 (min ((if oldStart = 0 then 0 else (oldStart : Int) - 1)
                + offset) ((lines.length : Int)))).toNat),
             offset + (newBlock.length : Int)) ∧
      (oldStart = 0 → offset = 0 →
        applyHunk (lines, offset) g = .ok (newBlock ++ lines, (newBlock.length : Int))) := by
  have hpoint : insPoint oldStart offset lines.length =
      (max 0 (min ((if oldStart = 0 then 0 else (oldStart : Int) - 1) + offset)
        ((lines.length : Int)))).toNat := by
    unfold insPoint
    by_cases h0 : oldStart = 0
    · rw [if_pos h0, if_pos h0]
      omega
    · rw [if_neg h0, if_neg h0]
      omega
  have hmain : applyHunk (lines, offset) g =
      .ok (splice lines (insPoint oldStart offset lines.length)
             (insPoint oldStart offset lines.length) newBlock,
           offset + (newBlock.length : Int)) := by
    unfold applyHunk
    simp only [hsg, hph, hib]
    rw [if_pos hsw]
    simp only [if_true]
    rw [if_neg hnb]
  constructor
  · rw [hmain, hpoint]
    rfl
  · intro h0 hoff
    rw [hmain]
    have hzero : insPoint oldStart offset lines.length = 0 := by
      rw [h0, hoff]
      unfold insPoint
      simp only [if_pos rfl]
      omega
    rw [hzero, hoff]
    unfold splice
    simp

theorem c6_witness :
    applyHunk (["x", "y"], 0) ["@@ -0,0 +2,2 @@", "+a", "+b"] =
        .ok ((["x", "y"].take ((max 0 (min ((if 0 = 0 then 0 else (0 : Int) - 1)
              + 0) (((["x", "y"] : List String).length : Int)))).toNat)) ++ ["a", "b"] ++
            (["x", "y"].drop ((max 0 (min ((if 0 = 0 then 0 else (0 : Int) - 1)
              + 0) (((["x", "y"] : List String).length : Int)))).toNat)),
            0 + ((["a", "b"] : List String).length : Int)) ∧
      (0 = 0 → (0 : Int) = 0 →
        applyHunk (["x", "y"], 0) ["@@ -0,0 +2,2 @@", "+a", "+b"] =
          .ok (["a", "b"] ++ ["x", "y"], ((["a", "b"] : List String).length : Int))) :=
  c6_pure_insertion ["x", "y"] 0 ["@@ -0,0 +2,2 @@", "+a", "+b"]
    "@@ -0,0 +2,2 @@" ["+a", "+b"] 0 ["a", "b"] rfl rfl rfl rfl (by decide)

/-- C7: a replacement hunk (non-empty expected block) reports a hunk match
failure exactly when the flexible matcher fails both from the window start
`max(0, (oldStart - 1) + cumulativeOffset - 40)` and from `0`; the error
carries the full list of expected stripped lines, and once raised it aborts
the whole remaining run. -/
theorem c7_replacement_failure_iff (lines : List String) (offset : Int)
    (g : List String) (header : String) (body : List String) (oldStart : Nat)
    (hsg : stripGroup g = header :: body)
    (hsw : pyStartsWith header "@@" = true)
    (hph : parseHunkHeader header = some oldStart)
    (hexp : (interpretBody body).1 ≠ []) :
    (applyHunk (lines, offset) g =
        .error (.hunkMatchFailure header (interpretBody body).1) ↔
      find_flexible_match lines (interpretBody body).1
          ((((oldStart : Int) - 1) + offset) - 40).toNat = none ∧
        find_flexible_match lines (interpretBody body).1 0 = none) ∧
      ∀ gs, applyHunk (lines, offset) g =
          .error (.hunkMatchFailure header (interpretBody body).1) →
        applyHunks (g :: gs) (lines, offset) =
          .error (.hunkMatchFailure header (interpretBody body).1) := by
  have happ : applyHunk (lines, offset) g =
      match tryFind lines (interpretBody body).1 oldStart offset with
      | some r =>
        .ok (splice lines r.1 r.2 (interpretBody body).2,
             offset + (((interpretBody body).2.length : Int)) -
               ((r.2 : Int) - (r.1 : Int)))
      | none => .error (.hunkMatchFailure header (interpretBody body).1) := by
    unfold applyHunk
    simp only [hsg, hph]
    rw [if_pos hsw, if_neg hexp]
  constructor
  · rw [happ]
    unfold tryFind
    cases h1 : find_flexible_match lines (interpretBody body).1
        ((((oldStart : Int) - 1) + offset) - 40).toNat with
    | some r1 => simp [h1]
    | none =>
      cases h2 : find_flexible_match lines (interpretBody body).1 0 with
      | some r2 => simp [h1, h2]
      | none => simp [h1, h2]
  · intro gs herr
    simp only [applyHunks, herr]

theorem c7_witness :
    (applyHunk ((["a"], 0) : List String × Int) ["@@ -1 +1 @@", "-zzz"] =
        .error (.hunkMatchFailure "@@ -1 +1 @@" (interpretBody ["-zzz"]).1) ↔
      find_flexible_match ["a"] (interpretBody ["-zzz"]).1
          ((((1 : Nat) : Int) - 1 + (0 : Int) - 40).toNat) = none ∧
        find_flexible_match ["a"] (interpretBody ["-zzz"]).1 0 = none) ∧
      ∀ gs, applyHunk ((["a"], 0) : List String × Int) ["@@ -1 +1 @@", "-zzz"] =
          .error (.hunkMatchFailure "@@ -1 +1 @@" (interpretBody ["-zzz"]).1) →
        applyHunks (["@@ -1 +1 @@", "-zzz"] :: gs) ((["a"], 0) : List String × Int) =
          .error (.hunkMatchFailure "@@ -1 +1 @@" (interpretBody ["-zzz"]).1) :=
  c7_replacement_failure_iff ["a"] 0 ["@@ -1 +1 @@", "-zzz"] "@@ -1 +1 @@" ["-zzz"] 1
    rfl rfl rfl (by decide)

/-! ## Filesystem-level lemmas -/

/-- Every run either fails with the filesystem untouched, succeeds with the
filesystem untouched (no-op diff), or succeeds writing only the target. -/
theorem apply_fuzzy_patch_shape (fs : String → Option String) (t d : String) :
    apply_fuzzy_patch fs t d = (fs, false) ∨ apply_fuzzy_patch fs t d = (fs, true) ∨
      ∃ ls, apply_fuzzy_patch fs t d =
        (fun p => if p = t then some (fromLines ls) else fs p, true) := by
  unfold apply_fuzzy_patch
  split
  · exact Or.inl rfl
  · split
    · exact Or.inr (Or.inl rfl)
    · split
      · exact Or.inl rfl
      · split
        · exact Or.inr (Or.inl rfl)
        · exact Or.inl rfl
        · exact Or.inr (Or.inr ⟨_, rfl⟩)

/-- C1: when `apply_fuzzy_patch` fails, the filesystem (in particular the
target file) is byte-identical to before the call, and no path other than the
target is ever written. -/
theorem c1_failure_leaves_target_unchanged (fs : String → Option String)
    (t d : String) :
    ((apply_fuzzy_patch fs t d).2 = false → (apply_fuzzy_patch fs t d).1 = fs) ∧
      ∀ p, p ≠ t → (apply_fuzzy_patch fs t d).1 p = fs p := by
  rcases apply_fuzzy_patch_shape fs t d with h | h | ⟨ls, h⟩ <;> rw [h]
  · exact ⟨fun _ => rfl, fun p _ => rfl⟩
  · exact ⟨fun hc => absurd hc (by simp), fun p _ => rfl⟩
  · refine ⟨fun hc => absurd hc (by simp), fun p hp => ?_⟩
    simp only
    rw [if_neg hp]

theorem c1_witness :
    (apply_fuzzy_patch (fun p => if p = "t" then some "a\n" else none) "t" "d").1 =
      (fun p => if p = "t" then some "a\n" else none) :=
  (c1_failure_leaves_target_unchanged
    (fun p => if p = "t" then some "a\n" else none) "t" "d").1 rfl

/-- A diff whose lines contain no hunk header makes the run a no-op before the
final write. -/
theorem core_noWrite (dl tl : List String)
    (hg : groupHunks (dl.dropWhile (fun l => !startsHunk l)) = []) :
    fuzzyPatchCore dl tl = .noWrite := by
  unfold fuzzyPatchCore
  by_cases hdl : dl = []
  · rw [if_pos hdl]
  · rw [if_neg hdl]
    simp [hg]

/-- C8: a diff that is empty, whitespace-only, or has no line starting a hunk
succeeds and leaves the whole filesystem, in particular the target file,
byte-identical (the run returns before the final write). -/
theorem c8_noop_diff_identity (fs : String → Option String) (t d : String)
    (dc tc : String) (hfd : fs d = some dc) (hft : fs t = some tc)
    (hnohunk : ∀ l ∈ toLines dc, startsHunk l = false) :
    apply_fuzzy_patch fs t d = (fs, true) := by
  have hdw : (toLines dc).dropWhile (fun l => !startsHunk l) = [] :=
    List.dropWhile_eq_nil_iff.mpr (fun x hx => by rw [hnohunk x hx]; rfl)
  have hgroups : groupHunks ((toLines dc).dropWhile (fun l => !startsHunk l)) = [] := by
    rw [hdw]
    rfl
  unfold apply_fuzzy_patch
  simp only [hfd]
  by_cases hdl : toLines dc = []
  · rw [if_pos hdl]
  · rw [if_neg hdl]
    cases hnf : isNewFileDiff (toLines dc) with
    | true => simp [hnf, core_noWrite _ _ hgroups]
    | false => simp [hnf, hft, core_noWrite _ _ hgroups]

theorem c8_witness :
    apply_fuzzy_patch
        (fun p => if p = "t" then some "x\n"
          else if p = "d" then some "hello world\n \n" else none) "t" "d" =
      ((fun p => if p = "t" then some "x\n"
          else if p = "d" then some "hello world\n \n" else none), true) :=
  c8_noop_diff_identity
    (fun p => if p = "t" then some "x\n"
      else if p = "d" then some "hello world\n \n" else none)
    "t" "d" "hello world\n \n" "x\n" rfl rfl (by decide)

/-- C9 as stated is false: this diff contains a `---` line mentioning
`/dev/null` (on its second line), yet the run does not enter creation mode:
with the target file absent it fails instead of creating the target from an
empty line sequence. -/
theorem c9_counterexample :
    ("--- /dev/null" ∈ toLines "+++ b/f\n--- /dev/null\n@@ -0,0 +1 @@\n+hello\n" ∧
        pyStartsWith "--- /dev/null" "---" = true ∧
        containsSub "--- /dev/null" "/dev/null" = true) ∧
      apply_fuzzy_patch
          (fun p => if p = "d"
            then some "+++ b/f\n--- /dev/null\n@@ -0,0 +1 @@\n+hello\n" else none)
          "t" "d" =
        ((fun p => if p = "d"
            then some "+++ b/f\n--- /dev/null\n@@ -0,0 +1 @@\n+hello\n" else none),
          false) :=
  ⟨⟨by decide, rfl, rfl⟩, rfl⟩

/-- C9 amended: only a diff whose FIRST line starts with `---` and contains
`/dev/null` or `a/dev/null` enters creation mode; then the target file is
never read and patching starts from the empty line sequence. -/
theorem c9_amended_first_line_creation (fs : String → Option String)
    (t d dc : String) (l0 : String) (rest : List String)
    (hfd : fs d = some dc) (hdl : toLines dc = l0 :: rest)
    (h0 : pyStartsWith l0 "---" = true)
    (hdev : (containsSub l0 "/dev/null" || containsSub l0 "a/dev/null") = true) :
    apply_fuzzy_patch fs t d = creationResult fs t (toLines dc) := by
  have hnf : isNewFileDiff (toLines dc) = true := by
    rw [hdl]
    simp only [isNewFileDiff]
    rw [h0, hdev]
    rfl
  unfold apply_fuzzy_patch creationResult
  simp only [hfd]
  rw [if_neg (by rw [hdl]; simp)]
  simp only [hnf, if_true]

theorem c9_amended_witness :
    apply_fuzzy_patch
        (fun p => if p = "d"
          then some "--- /dev/null\n+++ b/t\n@@ -0,0 +1 @@\n+hello\n" else none)
        "t" "d" =
      creationResult
        (fun p => if p = "d"
          then some "--- /dev/null\n+++ b/t\n@@ -0,0 +1 @@\n+hello\n" else none)
        "t" (toLines "--- /dev/null\n+++ b/t\n@@ -0,0 +1 @@\n+hello\n") :=
  c9_amended_first_line_creation
    (fun p => if p = "d"
      then some "--- /dev/null\n+++ b/t\n@@ -0,0 +1 @@\n+hello\n" else none)
    "t" "d" "--- /dev/null\n+++ b/t\n@@ -0,0 +1 @@\n+hello\n"
    "--- /dev/null" ["+++ b/t", "@@ -0,0 +1 @@", "+hello"] rfl rfl rfl rfl

end FuzzyPatch
